import Mathlib

/-!
Verification of the durchen content annotation core
(`durchen_content_annotation/annotation.py`).

Texts are modelled as `List Char` (Python strings are character
sequences) and offsets as `Nat`.  Python slice clamping
(`s[a:b]`, `s[:i]`, `s[i:]` never fail for non-negative indices)
is reproduced by `List.take` / `List.drop`, which clamp the same way.
Python's stable `list.sort(key=...)` is modelled by insertion sort
with the non-strict key order, which computes the same (unique)
stable ascending permutation.
-/

namespace Durchen

/-- Python slice `l[a:b]` for non-negative indices: clamps, never fails. -/
def pySlice (l : List Char) (a b : Nat) : List Char :=
  (l.drop a).take (b - a)

/-- A span record `{"start": ..., "end": ...}`, 0-based offsets. -/
structure Span where
  start : Nat
  «end» : Nat
deriving Repr, DecidableEq

/-- One durchen annotation object: `{"span": {...}, "note": ...}`. -/
structure DurchenNote where
  span : Span
  note : List Char
deriving Repr, DecidableEq

/-- One entry of the tag position map: `{"tag": ..., "original_pos": ...}`. -/
structure TagInfo where
  tag : List Char
  original_pos : Nat
deriving Repr, DecidableEq

/-- One segmentation object: `{"id": ..., "span": {...}}`. -/
structure Segment where
  id : List Char
  span : Span
deriving Repr, DecidableEq

/-- One output record of `get_all_segments_with_tags`:
`{"id": ..., "content": ...}` (these are the only keys the code emits). -/
structure SegmentWithContent where
  id : List Char
  content : List Char
deriving Repr, DecidableEq

/-- The marker string built by the f-string
`f'<sup class="footnote-marker"></sup><i class="footnote">{note}</i>'`:
the fixed prefix, the raw note, the fixed suffix. -/
def marker (note : List Char) : List Char :=
  "<sup class=\"footnote-marker\"></sup><i class=\"footnote\">".data
    ++ note ++ "</i>".data

/-- Key order used by `tag_position_map.sort(key=lambda x: x['original_pos'])`. -/
def posLe (a b : TagInfo) : Prop := a.original_pos ≤ b.original_pos

instance : DecidableRel posLe := fun a b => Nat.decLe a.original_pos b.original_pos

instance : IsTotal TagInfo posLe := ⟨fun a b => Nat.le_total a.original_pos b.original_pos⟩

instance : IsTrans TagInfo posLe := ⟨fun _ _ _ h h' => Nat.le_trans h h'⟩

/-- The per-annotation entry appended inside the loop of
`_build_tag_position_map_from_durchen`. -/
def toTagInfo (item : DurchenNote) : TagInfo :=
  { tag := marker item.note, original_pos := item.span.«end» }

/-- `_build_tag_position_map_from_durchen`: map each annotation to its
tag/position entry, then sort (stably) by `original_pos`. -/
def _build_tag_position_map_from_durchen (durchen_data : List DurchenNote) : List TagInfo :=
  (durchen_data.map toTagInfo).insertionSort posLe

/-- `insert_durchen_tags`: splice every tag into the text, iterating the
(ascending) tag position map in reverse, each step doing
`annotated_text[:end_index] + tag + annotated_text[end_index:]`. -/
def insert_durchen_tags (text : List Char) (durchen_data : List DurchenNote) : List Char :=
  let tag_position_map := _build_tag_position_map_from_durchen durchen_data
  tag_position_map.reverse.foldl
    (fun annotated_text tag_info =>
      annotated_text.take tag_info.original_pos ++ tag_info.tag
        ++ annotated_text.drop tag_info.original_pos)
    text

/-- The filter `start < tag_info['original_pos'] <= end` of
`get_segment_with_tags`. -/
def relevantTags (tag_position_map : List TagInfo) (start «end» : Nat) : List TagInfo :=
  tag_position_map.filter fun tag_info =>
    decide (start < tag_info.original_pos ∧ tag_info.original_pos ≤ «end»)

/-- The `for tag_info in relevant_tags` loop of `get_segment_with_tags`,
with the trailing `if current_pos < len(original_segment)` emission. -/
def renderLoop (original_segment : List Char) (start : Nat) :
    List TagInfo → Nat → List Char
  | [], current_pos =>
      if current_pos < original_segment.length then original_segment.drop current_pos
      else []
  | tag_info :: rest, current_pos =>
      let relative_pos := tag_info.original_pos - start
      (if current_pos < relative_pos then pySlice original_segment current_pos relative_pos
       else [])
        ++ tag_info.tag ++ renderLoop original_segment start rest relative_pos

/-- `get_segment_with_tags`: slice the segment, keep the tags with
`start < original_pos <= end`, and interleave them at their relative
positions. -/
def get_segment_with_tags (original_text : List Char) (tag_position_map : List TagInfo)
    (start «end» : Nat) : List Char :=
  let original_segment := pySlice original_text start «end»
  let relevant_tags := relevantTags tag_position_map start «end»
  if relevant_tags.isEmpty then original_segment
  else renderLoop original_segment start relevant_tags 0

/-- The `for segment in segmentation_data` loop of
`get_all_segments_with_tags`.  The tag position map is `none` when
`durchen_data` was `None` (the local variable was never assigned), in
which case the first loop iteration raises `UnboundLocalError`,
modelled as `none`. -/
def getAllLoop (original_text : List Char) (tag_position_map : Option (List TagInfo)) :
    List Segment → Option (List SegmentWithContent)
  | [] => some []
  | segment :: rest =>
      match tag_position_map with
      | none => none
      | some tpm =>
          (getAllLoop original_text tag_position_map rest).map
            (fun tail =>
              { id := segment.id,
                content := get_segment_with_tags original_text tpm
                  segment.span.start segment.span.«end» } :: tail)

/-- `get_all_segments_with_tags(original_text, segmentation_data, durchen_data=None)`. -/
def get_all_segments_with_tags (original_text : List Char) (segmentation_data : List Segment)
    (durchen_data : Option (List DurchenNote)) : Option (List SegmentWithContent) :=
  getAllLoop original_text (durchen_data.map _build_tag_position_map_from_durchen)
    segmentation_data

/-- Specification-level splicing: positions are interpreted against the
original text only, markers become zero-width insertions; the text from
`prev` on is emitted as `text[prev:p₁] ++ tag₁ ++ text[p₁:p₂] ++ ... ++ text[pₖ:]`. -/
def spliceSpec (text : List Char) (prev : Nat) : List TagInfo → List Char
  | [] => text.drop prev
  | tag_info :: rest =>
      pySlice text prev tag_info.original_pos ++ tag_info.tag
        ++ spliceSpec text tag_info.original_pos rest

/-- Entry with its position re-based to a segment start (`original_pos - start`). -/
def shiftTag (start : Nat) (tag_info : TagInfo) : TagInfo :=
  { tag := tag_info.tag, original_pos := tag_info.original_pos - start }

/-- The fixed marker prefix: the empty superscript element and the
opening italic element. -/
def markerPre : List Char :=
  "<sup class=\"footnote-marker\"></sup><i class=\"footnote\">".data

/-- The marker prefix without its leading `<`. -/
def markerPreTail : List Char :=
  "sup class=\"footnote-marker\"></sup><i class=\"footnote\">".data

/-- The fixed marker suffix: the closing italic tag. -/
def markerSuf : List Char := "</i>".data

/-- Scanner locating the first occurrence of the closing `</i>`: returns
what follows it, or `none` when the closing tag never occurs. -/
def skipToClose : List Char → Option (List Char)
  | [] => none
  | c :: rest =>
      if markerSuf.isPrefixOf (c :: rest) then some ((c :: rest).drop markerSuf.length)
      else skipToClose rest

/-- Fuel-indexed scanner deleting every occurrence of the marker pattern:
the fixed prefix followed by the shortest run of characters ending in the
closing `</i>`.  Fuel at least the input length (as `stripMarkers`
supplies) never runs out. -/
def stripFuel : Nat → List Char → List Char
  | 0, l => l
  | _ + 1, [] => []
  | fuel + 1, c :: rest =>
      if markerPre.isPrefixOf (c :: rest) then
        match skipToClose ((c :: rest).drop markerPre.length) with
        | some rest2 => stripFuel fuel rest2
        | none => c :: stripFuel fuel rest
      else c :: stripFuel fuel rest

/-- Delete every occurrence of the fixed marker template pattern from a
rendered output. -/
def stripMarkers (l : List Char) : List Char := stripFuel l.length l

theorem renderLoop_eq_spliceSpec (seg : List Char) (start : Nat) (tags : List TagInfo)
    (c : Nat) : renderLoop seg start tags c = spliceSpec seg c (tags.map (shiftTag start)) := by
  induction tags generalizing c with
  | nil =>
      simp only [renderLoop, List.map_nil, spliceSpec]
      split
      · rfl
      · next h => rw [List.drop_eq_nil_of_le (by omega)]
  | cons t rest ih =>
      simp only [renderLoop, List.map_cons, spliceSpec, shiftTag]
      rw [ih]
      congr 1
      split
      · rfl
      · next h =>
          have h0 : t.original_pos - start - c = 0 := by omega
          simp [pySlice, h0]

/-- The extractor's output in canonical spliced form: the plain segment
slice interleaved with exactly the filtered tags at their re-based
positions. -/
theorem get_segment_eq_spliceSpec (original_text : List Char)
    (tag_position_map : List TagInfo) (start «end» : Nat) :
    get_segment_with_tags original_text tag_position_map start «end» =
      spliceSpec (pySlice original_text start «end») 0
        ((relevantTags tag_position_map start «end»).map (shiftTag start)) := by
  by_cases h : relevantTags tag_position_map start «end» = []
  · simp [get_segment_with_tags, h, spliceSpec]
  · have hne : (relevantTags tag_position_map start «end»).isEmpty = false := by
      simpa [List.isEmpty_iff] using h
    simp only [get_segment_with_tags, hne, Bool.false_eq_true, if_false]
    exact renderLoop_eq_spliceSpec _ _ _ _

theorem mem_relevantTags (tag_position_map : List TagInfo) (start «end» : Nat)
    (tag_info : TagInfo) :
    tag_info ∈ relevantTags tag_position_map start «end» ↔
      tag_info ∈ tag_position_map ∧ start < tag_info.original_pos ∧
        tag_info.original_pos ≤ «end» := by
  simp [relevantTags, List.mem_filter]

/-- C1: the segment extractor selects exactly the marker-table entries with
`start < anchor_offset ≤ end` (so an entry anchored at `start` is excluded
and one anchored at `end` is included, for any `start`), and its rendered
output is the plain slice interleaved with exactly those entries. -/
theorem c1_segment_selection (original_text : List Char) (tag_position_map : List TagInfo)
    (start «end» : Nat) :
    (∀ tag_info, tag_info ∈ relevantTags tag_position_map start «end» ↔
      tag_info ∈ tag_position_map ∧ start < tag_info.original_pos ∧
        tag_info.original_pos ≤ «end») ∧
    get_segment_with_tags original_text tag_position_map start «end» =
      spliceSpec (pySlice original_text start «end») 0
        ((relevantTags tag_position_map start «end»).map (shiftTag start)) :=
  ⟨mem_relevantTags tag_position_map start «end»,
    get_segment_eq_spliceSpec original_text tag_position_map start «end»⟩

theorem getAllLoop_some (original_text : List Char) (tpm : List TagInfo)
    (segs : List Segment) :
    getAllLoop original_text (some tpm) segs =
      some (segs.map fun segment =>
        { id := segment.id,
          content := get_segment_with_tags original_text tpm
            segment.span.start segment.span.«end» }) := by
  induction segs with
  | nil => rfl
  | cons s rest ih => simp only [getAllLoop, ih, Option.map_some', List.map_cons]

/-- C3: with annotations supplied, the batch renderer builds the marker
table once and maps the single-segment extractor over the segments in
order, carrying each segment's id; hence output length equals input
length and order is preserved. -/
theorem c3_batch_equivalence (original_text : List Char)
    (segmentation_data : List Segment) (durchen_data : List DurchenNote) :
    get_all_segments_with_tags original_text segmentation_data (some durchen_data) =
      some (segmentation_data.map fun segment =>
        { id := segment.id,
          content := get_segment_with_tags original_text
            (_build_tag_position_map_from_durchen durchen_data)
            segment.span.start segment.span.«end» }) ∧
    ∀ out, get_all_segments_with_tags original_text segmentation_data (some durchen_data) =
      some out → out.length = segmentation_data.length := by
  have h1 : get_all_segments_with_tags original_text segmentation_data (some durchen_data) =
      some (segmentation_data.map fun segment =>
        ({ id := segment.id,
           content := get_segment_with_tags original_text
             (_build_tag_position_map_from_durchen durchen_data)
             segment.span.start segment.span.«end» } : SegmentWithContent)) := by
    rw [get_all_segments_with_tags, Option.map_some']
    exact getAllLoop_some _ _ _
  refine ⟨h1, fun out hout => ?_⟩
  rw [h1] at hout
  cases hout
  exact List.length_map _ _

theorem c3_batch_equivalence_witness :
    get_all_segments_with_tags "abcd".data [⟨"s1".data, ⟨0, 2⟩⟩] (some []) =
      some [{ id := "s1".data, content := "ab".data }] ∧
    ([{ id := "s1".data, content := "ab".data }] : List SegmentWithContent).length = 1 := by
  have h := c3_batch_equivalence "abcd".data [⟨"s1".data, ⟨0, 2⟩⟩] []
  have h1 : get_all_segments_with_tags "abcd".data [⟨"s1".data, ⟨0, 2⟩⟩] (some []) =
      some [{ id := "s1".data, content := "ab".data }] := h.1.trans (by decide)
  exact ⟨h1, h.2 _ h1⟩

/-- C10: with `durchen_data` left at its default `None`, the batch
renderer fails (the tag position map local is never assigned, so the
first loop iteration raises) for every non-empty segment list, while an
empty segment list returns the empty list. -/
theorem c10_optional_durchen (original_text : List Char) :
    (∀ segmentation_data : List Segment, segmentation_data ≠ [] →
      get_all_segments_with_tags original_text segmentation_data none = none) ∧
    get_all_segments_with_tags original_text [] none = some [] := by
  constructor
  · intro segs hne
    cases segs with
    | nil => exact absurd rfl hne
    | cons s rest => rfl
  · rfl

theorem c10_optional_durchen_witness :
    get_all_segments_with_tags "ab".data [⟨"s".data, ⟨0, 1⟩⟩] none = none ∧
    get_all_segments_with_tags "ab".data [] none = some [] :=
  ⟨(c10_optional_durchen "ab".data).1 _ (by decide), (c10_optional_durchen "ab".data).2⟩

theorem filter_orderedInsert (p : Nat) (t : TagInfo) (l : List TagInfo) :
    (l.orderedInsert posLe t).filter (fun x => decide (x.original_pos = p)) =
      if t.original_pos = p
      then t :: l.filter (fun x => decide (x.original_pos = p))
      else l.filter (fun x => decide (x.original_pos = p)) := by
  induction l with
  | nil =>
      simp only [List.orderedInsert, List.filter]
      split <;> simp_all
  | cons b rest ih =>
      by_cases hle : posLe t b
      · rw [List.orderedInsert_of_le _ _ hle, List.filter_cons, List.filter_cons]
        split <;> split <;> simp_all
      · have hlt : b.original_pos < t.original_pos := by
          simpa [posLe] using hle
        simp only [List.orderedInsert, if_neg hle, List.filter_cons, ih]
        by_cases hb : b.original_pos = p <;> by_cases ht : t.original_pos = p <;>
          simp_all

theorem filter_insertionSort (p : Nat) (l : List TagInfo) :
    (l.insertionSort posLe).filter (fun x => decide (x.original_pos = p)) =
      l.filter (fun x => decide (x.original_pos = p)) := by
  induction l with
  | nil => rfl
  | cons t rest ih =>
      rw [List.insertionSort, filter_orderedInsert, ih, List.filter_cons]
      by_cases ht : t.original_pos = p <;> simp [ht]

/-- C6: the marker table is sorted ascending by anchor offset, has the same
length as the annotation list, and the sort is stable: at every anchor
position the table lists the entries of the annotations with that span end
in their original input order. -/
theorem c6_stable_sort (durchen_data : List DurchenNote) :
    List.Sorted posLe (_build_tag_position_map_from_durchen durchen_data) ∧
    (_build_tag_position_map_from_durchen durchen_data).length = durchen_data.length ∧
    ∀ p, (_build_tag_position_map_from_durchen durchen_data).filter
        (fun x => decide (x.original_pos = p)) =
      (durchen_data.map toTagInfo).filter (fun x => decide (x.original_pos = p)) := by
  refine ⟨List.sorted_insertionSort posLe _, ?_, fun p => filter_insertionSort p _⟩
  rw [_build_tag_position_map_from_durchen, List.length_insertionSort, List.length_map]

/-- C9: every annotation contributes to the marker table an entry anchored
at its span end whose tag is exactly the fixed empty-superscript prefix,
the raw note verbatim (no escaping), and the closing italic tag. -/
theorem c9_marker_format (durchen_data : List DurchenNote) (a : DurchenNote)
    (h : a ∈ durchen_data) :
    ({ tag := "<sup class=\"footnote-marker\"></sup><i class=\"footnote\">".data
        ++ a.note ++ "</i>".data,
       original_pos := a.span.«end» } : TagInfo) ∈
      _build_tag_position_map_from_durchen durchen_data := by
  rw [_build_tag_position_map_from_durchen, List.mem_insertionSort]
  exact List.mem_map_of_mem toTagInfo h

theorem c9_marker_format_witness :
    (⟨⟨2, 5⟩, "hi".data⟩ : DurchenNote) ∈ ([⟨⟨2, 5⟩, "hi".data⟩] : List DurchenNote) ∧
    ({ tag := "<sup class=\"footnote-marker\"></sup><i class=\"footnote\">".data
        ++ "hi".data ++ "</i>".data,
       original_pos := 5 } : TagInfo) ∈
      _build_tag_position_map_from_durchen [⟨⟨2, 5⟩, "hi".data⟩] := by
  have hm : (⟨⟨2, 5⟩, "hi".data⟩ : DurchenNote) ∈
      ([⟨⟨2, 5⟩, "hi".data⟩] : List DurchenNote) := by decide
  exact ⟨hm, c9_marker_format _ _ hm⟩

/-- C8: annotating with an empty annotation list returns the text
unchanged, and a segment for which no table entry satisfies
`start < pos ≤ end` renders as the plain slice with no marker appended. -/
theorem c8_empty_safety :
    (∀ text : List Char, insert_durchen_tags text [] = text) ∧
    ∀ (original_text : List Char) (tag_position_map : List TagInfo) (start «end» : Nat),
      (∀ t ∈ tag_position_map, ¬(start < t.original_pos ∧ t.original_pos ≤ «end»)) →
      get_segment_with_tags original_text tag_position_map start «end» =
        pySlice original_text start «end» := by
  constructor
  · intro text; rfl
  · intro original_text tpm start «end» h
    have he : relevantTags tpm start «end» = [] := by
      rw [relevantTags, List.filter_eq_nil_iff]
      intro t ht
      simpa using h t ht
    simp [get_segment_with_tags, he]

theorem c8_empty_safety_witness :
    insert_durchen_tags "hello".data [] = "hello".data ∧
    (∀ t ∈ ([⟨"x".data, 9⟩] : List TagInfo),
      ¬(0 < t.original_pos ∧ t.original_pos ≤ 5)) ∧
    get_segment_with_tags "hello world".data [⟨"x".data, 9⟩] 0 5 =
      pySlice "hello world".data 0 5 :=
  ⟨c8_empty_safety.1 _, by decide, c8_empty_safety.2 _ _ _ _ (by decide)⟩

/-- C4 counterexample: an annotation whose anchor `span.end = 5` lies
outside `[0, len("ab")] = [0, 2]` raises nothing: the marker is appended
after the whole (clamped) text; a segment with `start > end` raises
nothing either: its record is produced with empty content.  Neither
operation has an error path, contradicting the claim that an error is
surfaced and no output produced. -/
theorem c4_counterexample :
    insert_durchen_tags "ab".data [⟨⟨0, 5⟩, "n".data⟩] = "ab".data ++ marker "n".data ∧
    get_all_segments_with_tags "ab".data [⟨"s".data, ⟨2, 1⟩⟩] (some []) =
      some [{ id := "s".data, content := [] }] :=
  ⟨by decide, by decide⟩

/-- C4 amended: the operations validate nothing and never surface an
error; a lone annotation anchored at or past the end of the text gets
its marker appended at the clamped position (the end of the text), and a
segment with `start ≥ end` extracts the empty string. -/
theorem c4_clamping :
    (∀ (text note : List Char) (s e : Nat), text.length ≤ e →
      insert_durchen_tags text [⟨⟨s, e⟩, note⟩] = text ++ marker note) ∧
    ∀ (original_text : List Char) (tag_position_map : List TagInfo) (start «end» : Nat),
      «end» ≤ start →
      get_segment_with_tags original_text tag_position_map start «end» = [] := by
  constructor
  · intro text note s e he
    have h1 : insert_durchen_tags text [⟨⟨s, e⟩, note⟩] =
        text.take e ++ marker note ++ text.drop e := rfl
    rw [h1, List.take_of_length_le he, List.drop_eq_nil_of_le he, List.append_nil]
  · intro original_text tpm start «end» hle
    have he : relevantTags tpm start «end» = [] := by
      rw [relevantTags, List.filter_eq_nil_iff]
      intro t ht
      simp only [decide_eq_true_eq]
      omega
    have hs : pySlice original_text start «end» = [] := by
      have h0 : «end» - start = 0 := by omega
      rw [pySlice, h0, List.take_zero]
    simp [get_segment_with_tags, he, hs]

theorem c4_clamping_witness :
    ("ab".data.length ≤ 5 ∧
      insert_durchen_tags "ab".data [⟨⟨0, 5⟩, "x".data⟩] = "ab".data ++ marker "x".data) ∧
    (1 ≤ 2 ∧ get_segment_with_tags "ab".data [] 2 1 = []) :=
  ⟨⟨by decide, c4_clamping.1 _ _ _ _ (by decide)⟩,
    ⟨by decide, c4_clamping.2 _ _ _ _ (by decide)⟩⟩

/-- C5 counterexample: two segments with the same id but different spans
whose spans render the same content produce identical output records;
the output record holds only id and content, so the original span is not
retained. -/
theorem c5_counterexample :
    ((⟨"x".data, ⟨0, 2⟩⟩ : Segment).span ≠ (⟨"x".data, ⟨1, 3⟩⟩ : Segment).span) ∧
    get_all_segments_with_tags "aaaa".data [⟨"x".data, ⟨0, 2⟩⟩] (some []) =
      get_all_segments_with_tags "aaaa".data [⟨"x".data, ⟨1, 3⟩⟩] (some []) :=
  ⟨by decide, by decide⟩

/-- C5 amended: each output record carries only the segment's id and its
computed content; the span is not retained, so segments with equal id
whose spans render equal content are indistinguishable in the output. -/
theorem c5_output_fields (original_text : List Char) (durchen_data : List DurchenNote)
    (id : List Char) (sp1 sp2 : Span)
    (h : get_segment_with_tags original_text
        (_build_tag_position_map_from_durchen durchen_data) sp1.start sp1.«end» =
      get_segment_with_tags original_text
        (_build_tag_position_map_from_durchen durchen_data) sp2.start sp2.«end») :
    get_all_segments_with_tags original_text [⟨id, sp1⟩] (some durchen_data) =
      get_all_segments_with_tags original_text [⟨id, sp2⟩] (some durchen_data) := by
  rw [get_all_segments_with_tags, get_all_segments_with_tags, Option.map_some',
    getAllLoop_some, getAllLoop_some]
  simp only [List.map_cons, List.map_nil]
  rw [h]

theorem c5_output_fields_witness :
    get_segment_with_tags "aaaa".data (_build_tag_position_map_from_durchen []) 0 2 =
      get_segment_with_tags "aaaa".data (_build_tag_position_map_from_durchen []) 1 3 ∧
    get_all_segments_with_tags "aaaa".data [⟨"y".data, ⟨0, 2⟩⟩] (some []) =
      get_all_segments_with_tags "aaaa".data [⟨"y".data, ⟨1, 3⟩⟩] (some []) :=
  ⟨by decide, c5_output_fields "aaaa".data [] "y".data ⟨0, 2⟩ ⟨1, 3⟩ (by decide)⟩

theorem pySlice_zero (text : List Char) (b : Nat) : pySlice text 0 b = text.take b := by
  simp [pySlice]

theorem take_spliceSpec (text : List Char) (p : Nat) (l : List TagInfo)
    (hp1 : ∀ t ∈ l, p ≤ t.original_pos) (hp2 : p ≤ text.length) :
    (spliceSpec text 0 l).take p = text.take p := by
  cases l with
  | nil => simp [spliceSpec]
  | cons u rest =>
      have hu : p ≤ u.original_pos := hp1 u (List.mem_cons_self u rest)
      rw [spliceSpec, pySlice_zero, List.append_assoc,
        List.take_append_of_le_length (by simp; omega), List.take_take,
        Nat.min_eq_left hu]

theorem drop_spliceSpec (text : List Char) (p : Nat) (l : List TagInfo)
    (hp1 : ∀ t ∈ l, p ≤ t.original_pos) (hp2 : p ≤ text.length) :
    (spliceSpec text 0 l).drop p = spliceSpec text p l := by
  cases l with
  | nil => simp [spliceSpec]
  | cons u rest =>
      have hu : p ≤ u.original_pos := hp1 u (List.mem_cons_self u rest)
      rw [spliceSpec, pySlice_zero, List.append_assoc,
        List.drop_append_of_le_length (by simp; omega), spliceSpec,
        ← List.append_assoc, List.drop_take, pySlice]

theorem foldl_splice_eq_spliceSpec (text : List Char) (l : List TagInfo)
    (hs : List.Sorted posLe l) (hb : ∀ t ∈ l, t.original_pos ≤ text.length) :
    l.reverse.foldl
      (fun annotated_text tag_info =>
        annotated_text.take tag_info.original_pos ++ tag_info.tag
          ++ annotated_text.drop tag_info.original_pos) text =
      spliceSpec text 0 l := by
  induction l with
  | nil => simp [spliceSpec]
  | cons t rest ih =>
      rw [List.reverse_cons, List.foldl_append, List.foldl_cons, List.foldl_nil]
      rw [List.sorted_cons] at hs
      have hrest : ∀ u ∈ rest, t.original_pos ≤ u.original_pos := hs.1
      rw [ih hs.2 fun u hu => hb u (List.mem_cons_of_mem t hu)]
      rw [take_spliceSpec text t.original_pos rest hrest (hb t (List.mem_cons_self t rest)),
        drop_spliceSpec text t.original_pos rest hrest (hb t (List.mem_cons_self t rest))]
      rw [spliceSpec, pySlice_zero]

theorem mem_build_tag_map (durchen_data : List DurchenNote) (t : TagInfo)
    (ht : t ∈ _build_tag_position_map_from_durchen durchen_data) :
    ∃ a ∈ durchen_data, t = toTagInfo a := by
  rw [_build_tag_position_map_from_durchen, List.mem_insertionSort] at ht
  obtain ⟨a, ha, rfl⟩ := List.mem_map.mp ht
  exact ⟨a, ha, rfl⟩

theorem insert_eq_spliceSpec (text : List Char) (durchen_data : List DurchenNote)
    (h : ∀ a ∈ durchen_data, a.span.«end» ≤ text.length) :
    insert_durchen_tags text durchen_data =
      spliceSpec text 0 (_build_tag_position_map_from_durchen durchen_data) := by
  rw [insert_durchen_tags]
  apply foldl_splice_eq_spliceSpec
  · exact List.sorted_insertionSort posLe _
  · intro t ht
    obtain ⟨a, ha, rfl⟩ := mem_build_tag_map durchen_data t ht
    exact h a ha

/-- C2: with all anchors inside `[0, len(text)]`, whole-text annotation
equals the canonical splice of the sorted marker table against original
offsets, so every marker lands immediately before the character
originally at its `span.end`. -/
theorem c2_insert_at_end_offsets (text : List Char) (durchen_data : List DurchenNote)
    (h : ∀ a ∈ durchen_data, a.span.«end» ≤ text.length) :
    insert_durchen_tags text durchen_data =
      spliceSpec text 0 (_build_tag_position_map_from_durchen durchen_data) :=
  insert_eq_spliceSpec text durchen_data h

theorem c2_insert_at_end_offsets_witness :
    (∀ a ∈ ([⟨⟨0, 10⟩, "A is good".data⟩] : List DurchenNote),
      a.span.«end» ≤ "I have a dream".data.length) ∧
    insert_durchen_tags "I have a dream".data [⟨⟨0, 10⟩, "A is good".data⟩] =
      "I have a d".data ++ marker "A is good".data ++ "ream".data := by
  refine ⟨by decide, ?_⟩
  rw [c2_insert_at_end_offsets _ _ (by decide)]
  decide

theorem marker_eq (note : List Char) : marker note = markerPre ++ note ++ markerSuf := rfl

theorem markerPre_cons : markerPre = '<' :: markerPreTail := by decide

theorem markerSuf_cons : markerSuf = '<' :: "/i>".data := by decide

theorem isPrefixOf_append_self (l rest : List Char) : l.isPrefixOf (l ++ rest) = true := by
  induction l with
  | nil => simp [List.isPrefixOf]
  | cons c t ih => simp [List.isPrefixOf, ih]

theorem stripMarkers_nil : stripMarkers [] = [] := rfl

theorem cons_isPrefixOf_false (a c : Char) (l t : List Char) (h : ¬a = c) :
    (a :: l).isPrefixOf (c :: t) = false := by
  simp [List.isPrefixOf, h]

theorem skipToClose_length (l : List Char) :
    ∀ l', skipToClose l = some l' → l'.length < l.length := by
  induction l with
  | nil => intro l' h; simp [skipToClose] at h
  | cons c rest ih =>
      intro l' h
      rw [skipToClose] at h
      split at h
      · injection h with h'
        subst h'
        have h4 : markerSuf.length = 4 := rfl
        simp only [List.length_drop, List.length_cons, h4]
        omega
      · have hlt := ih l' h
        simp only [List.length_cons]
        omega

theorem stripFuel_congr (n : Nat) : ∀ (m : Nat) (l : List Char),
    l.length ≤ n → l.length ≤ m → stripFuel n l = stripFuel m l := by
  induction n with
  | zero =>
      intro m l hn _
      have hl : l = [] := List.eq_nil_of_length_eq_zero (Nat.le_zero.mp hn)
      subst hl
      cases m <;> rfl
  | succ n ih =>
      intro m l hn hm
      cases l with
      | nil => cases m <;> rfl
      | cons c rest =>
          cases m with
          | zero => simp at hm
          | succ m =>
              have hrest_n : rest.length ≤ n := by simp at hn; omega
              have hrest_m : rest.length ≤ m := by simp at hm; omega
              simp only [stripFuel]
              by_cases hpre : markerPre.isPrefixOf (c :: rest) = true
              · rw [if_pos hpre, if_pos hpre]
                cases hsk : skipToClose ((c :: rest).drop markerPre.length) with
                | none =>
                    show c :: stripFuel n rest = c :: stripFuel m rest
                    rw [ih m rest hrest_n hrest_m]
                | some rest2 =>
                    have h1 := skipToClose_length _ rest2 hsk
                    have h2 : ((c :: rest).drop markerPre.length).length ≤ rest.length + 1 := by
                      simp only [List.length_drop, List.length_cons]
                      omega
                    show stripFuel n rest2 = stripFuel m rest2
                    exact ih m rest2 (by omega) (by omega)
              · rw [if_neg hpre, if_neg hpre, ih m rest hrest_n hrest_m]

theorem stripMarkers_cons_ne (c : Char) (t : List Char) (hc : c ≠ '<') :
    stripMarkers (c :: t) = c :: stripMarkers t := by
  have hpre : markerPre.isPrefixOf (c :: t) = false := by
    rw [markerPre_cons]
    exact cons_isPrefixOf_false '<' c markerPreTail t fun h => hc h.symm
  have hne : ¬(markerPre.isPrefixOf (c :: t) = true) := by
    rw [hpre]
    exact Bool.false_ne_true
  show stripFuel (t.length + 1) (c :: t) = c :: stripFuel t.length t
  simp only [stripFuel]
  rw [if_neg hne]

theorem stripMarkers_append_noLt (l : List Char) (h : ∀ c ∈ l, c ≠ '<') (rest : List Char) :
    stripMarkers (l ++ rest) = l ++ stripMarkers rest := by
  induction l with
  | nil => simp
  | cons c t ih =>
      rw [List.cons_append, stripMarkers_cons_ne c (t ++ rest) (h c (List.mem_cons_self c t)),
        ih fun c' hc' => h c' (List.mem_cons_of_mem c hc'), List.cons_append]

theorem markerSuf_no_match (c : Char) (t : List Char) (hc : c ≠ '<') :
    markerSuf.isPrefixOf (c :: t) = false := by
  rw [markerSuf_cons]
  exact cons_isPrefixOf_false '<' c _ t fun h => hc h.symm

theorem skipToClose_body (note : List Char) (h : ∀ c ∈ note, c ≠ '<') (rest : List Char) :
    skipToClose (note ++ (markerSuf ++ rest)) = some rest := by
  induction note with
  | nil =>
      rw [List.nil_append]
      show skipToClose ('<' :: ("/i>".data ++ rest)) = some rest
      have hp : markerSuf.isPrefixOf ('<' :: ("/i>".data ++ rest)) = true :=
        isPrefixOf_append_self markerSuf rest
      rw [skipToClose, if_pos hp]
      rfl
  | cons c t ih =>
      rw [List.cons_append, skipToClose,
        if_neg (by simp [markerSuf_no_match c _ (h c (List.mem_cons_self c t))]),
        ih fun c' hc' => h c' (List.mem_cons_of_mem c hc')]

theorem stripFuel_pre_step (X : List Char) (fuel : Nat)
    (hpre : markerPre.isPrefixOf ('<' :: X) = true) (rest2 : List Char)
    (hsk : skipToClose (('<' :: X).drop markerPre.length) = some rest2) :
    stripFuel (fuel + 1) ('<' :: X) = stripFuel fuel rest2 := by
  simp only [stripFuel]
  rw [if_pos hpre, hsk]

set_option maxRecDepth 8192 in
theorem stripMarkers_marker (note : List Char) (h : ∀ c ∈ note, c ≠ '<') (rest : List Char) :
    stripMarkers (marker note ++ rest) = stripMarkers rest := by
  have hshape : marker note ++ rest =
      '<' :: (markerPreTail ++ (note ++ (markerSuf ++ rest))) := by
    rw [marker_eq, markerPre_cons]
    simp [List.append_assoc]
  have hpre : markerPre.isPrefixOf
      ('<' :: (markerPreTail ++ (note ++ (markerSuf ++ rest)))) = true :=
    isPrefixOf_append_self markerPre (note ++ (markerSuf ++ rest))
  have hdrop : ('<' :: (markerPreTail ++ (note ++ (markerSuf ++ rest)))).drop
      markerPre.length = note ++ (markerSuf ++ rest) := by
    show (markerPre ++ (note ++ (markerSuf ++ rest))).drop markerPre.length = _
    exact List.drop_left _ _
  have hsk : skipToClose (('<' :: (markerPreTail ++ (note ++ (markerSuf ++ rest)))).drop
      markerPre.length) = some rest := by
    rw [hdrop]
    exact skipToClose_body note h rest
  rw [hshape]
  show stripFuel ((markerPreTail ++ (note ++ (markerSuf ++ rest))).length + 1)
      ('<' :: (markerPreTail ++ (note ++ (markerSuf ++ rest)))) = stripMarkers rest
  rw [stripFuel_pre_step (markerPreTail ++ (note ++ (markerSuf ++ rest)))
    (markerPreTail ++ (note ++ (markerSuf ++ rest))).length hpre rest hsk]
  apply stripFuel_congr
  · simp only [List.length_append]
    omega
  · exact Nat.le_refl _

theorem mem_pySlice (text : List Char) (a b : Nat) (c : Char) (h : c ∈ pySlice text a b) :
    c ∈ text :=
  List.mem_of_mem_drop (List.mem_of_mem_take h)

theorem strip_spliceSpec (text : List Char) (hT : ∀ c ∈ text, c ≠ '<') (l : List TagInfo) :
    ∀ prev : Nat, List.Sorted posLe l → (∀ t ∈ l, prev ≤ t.original_pos) →
      (∀ t ∈ l, ∃ n, t.tag = marker n ∧ ∀ c ∈ n, c ≠ '<') →
      stripMarkers (spliceSpec text prev l) = text.drop prev := by
  induction l with
  | nil =>
      intro prev _ _ _
      rw [spliceSpec]
      have h1 := stripMarkers_append_noLt (text.drop prev)
        (fun c hc => hT c (List.mem_of_mem_drop hc)) []
      simpa [stripMarkers_nil] using h1
  | cons t rest ih =>
      intro prev hs hge htags
      rw [spliceSpec, List.append_assoc,
        stripMarkers_append_noLt (pySlice text prev t.original_pos)
          (fun c hc => hT c (mem_pySlice text prev t.original_pos c hc))]
      obtain ⟨n, htag, hn⟩ := htags t (List.mem_cons_self t rest)
      rw [htag, stripMarkers_marker n hn]
      rw [List.sorted_cons] at hs
      rw [ih t.original_pos hs.2 hs.1 fun u hu => htags u (List.mem_cons_of_mem t hu)]
      have hpt : prev ≤ t.original_pos := hge t (List.mem_cons_self t rest)
      rw [pySlice]
      have hdd : text.drop t.original_pos = (text.drop prev).drop (t.original_pos - prev) := by
        rw [List.drop_drop]
        congr 1
        omega
      rw [hdd, List.take_append_drop]

/-- C7 counterexample: a note that itself contains the closing tag
`</i>` defeats pattern-based stripping: removing every occurrence of the
marker pattern from the annotated text does not recover the original
text, refuting the claim for all texts and annotation sets. -/
theorem c7_counterexample :
    stripMarkers (insert_durchen_tags "ab".data [⟨⟨0, 1⟩, "x</i>y".data⟩]) ≠ "ab".data := by
  decide

/-- C7 amended: when the text and all notes contain no `<` character (so
nothing in them collides with the marker pattern) and anchors are in
range, removing every occurrence of the marker pattern from the
annotated whole text recovers the text, and from any extracted segment
recovers exactly the plain slice `text[start:end]`. -/
theorem c7_roundtrip (text : List Char) (durchen_data : List DurchenNote)
    (hT : ∀ c ∈ text, c ≠ '<')
    (hN : ∀ a ∈ durchen_data, ∀ c ∈ a.note, c ≠ '<')
    (hE : ∀ a ∈ durchen_data, a.span.«end» ≤ text.length) :
    stripMarkers (insert_durchen_tags text durchen_data) = text ∧
    ∀ start «end» : Nat,
      stripMarkers (get_segment_with_tags text
          (_build_tag_position_map_from_durchen durchen_data) start «end») =
        pySlice text start «end» := by
  have hmk : ∀ t ∈ _build_tag_position_map_from_durchen durchen_data,
      ∃ n, t.tag = marker n ∧ ∀ c ∈ n, c ≠ '<' := by
    intro t ht
    obtain ⟨a, ha, rfl⟩ := mem_build_tag_map durchen_data t ht
    exact ⟨a.note, rfl, hN a ha⟩
  have hsorted : List.Sorted posLe (_build_tag_position_map_from_durchen durchen_data) :=
    List.sorted_insertionSort posLe (durchen_data.map toTagInfo)
  constructor
  · rw [insert_eq_spliceSpec text durchen_data hE]
    have h0 := strip_spliceSpec text hT (_build_tag_position_map_from_durchen durchen_data)
      0 hsorted (fun t _ => Nat.zero_le _) hmk
    simpa using h0
  · intro start «end»
    rw [get_segment_eq_spliceSpec]
    have hTseg : ∀ c ∈ pySlice text start «end», c ≠ '<' :=
      fun c hc => hT c (mem_pySlice text start «end» c hc)
    have hsub : (relevantTags (_build_tag_position_map_from_durchen durchen_data)
        start «end»).Sublist (_build_tag_position_map_from_durchen durchen_data) :=
      List.filter_sublist _
    have hsorted2 : List.Sorted posLe
        (relevantTags (_build_tag_position_map_from_durchen durchen_data) start «end») :=
      hsorted.sublist hsub
    have hsorted3 : List.Sorted posLe
        ((relevantTags (_build_tag_position_map_from_durchen durchen_data)
          start «end»).map (shiftTag start)) := by
      apply List.Pairwise.map (shiftTag start) _ hsorted2
      intro a b hab
      exact Nat.sub_le_sub_right hab start
    have hmk2 : ∀ t ∈ (relevantTags (_build_tag_position_map_from_durchen durchen_data)
        start «end»).map (shiftTag start),
        ∃ n, t.tag = marker n ∧ ∀ c ∈ n, c ≠ '<' := by
      intro t ht
      obtain ⟨u, hu, rfl⟩ := List.mem_map.mp ht
      exact hmk u (hsub.subset hu)
    have h0 := strip_spliceSpec (pySlice text start «end») hTseg
      ((relevantTags (_build_tag_position_map_from_durchen durchen_data)
        start «end»).map (shiftTag start))
      0 hsorted3 (fun t _ => Nat.zero_le _) hmk2
    simpa using h0

theorem c7_roundtrip_witness :
    (∀ c ∈ "abc".data, c ≠ '<') ∧
    (∀ a ∈ ([⟨⟨0, 2⟩, "n".data⟩] : List DurchenNote), ∀ c ∈ a.note, c ≠ '<') ∧
    (∀ a ∈ ([⟨⟨0, 2⟩, "n".data⟩] : List DurchenNote),
      a.span.«end» ≤ "abc".data.length) ∧
    stripMarkers (insert_durchen_tags "abc".data [⟨⟨0, 2⟩, "n".data⟩]) = "abc".data ∧
    stripMarkers (get_segment_with_tags "abc".data
        (_build_tag_position_map_from_durchen [⟨⟨0, 2⟩, "n".data⟩]) 0 2) =
      pySlice "abc".data 0 2 := by
  have h := c7_roundtrip "abc".data [⟨⟨0, 2⟩, "n".data⟩]
    (by decide) (by decide) (by decide)
  exact ⟨by decide, by decide, by decide, h.1, h.2 0 2⟩

end Durchen
